import Mathlib

/-!
Shallow embedding of `entrypoint.py` (docker image auto-updater) in Lean 4.

Strings are modelled as `List Char`.  Python regular-expression behaviour is
modelled directly by executable functions; `\d` / `\s` are modelled as ASCII
digits / ASCII whitespace (all tags, file texts and branch names handled by
the tool are ASCII).
-/

namespace Updater

/-- ASCII whitespace, modelling Python `\s` / `str.strip` on the ASCII range. -/
def isWs (c : Char) : Bool :=
  c = ' ' || c = '\t' || c = '\n' || c = '\r' || c = '\x0b' || c = '\x0c'

/-- Separator characters of the version-run regex `[\.-]`. -/
def isSep (c : Char) : Bool :=
  c = '.' || c = '-'

/-- Python `str.split(sep)` for a single-character separator: splits on every
occurrence, keeping empty segments (`''.split('.') == ['']`). -/
def splitOnChar (sep : Char) : List Char → List (List Char)
  | [] => [[]]
  | c :: cs =>
    let r := splitOnChar sep cs
    if c = sep then [] :: r
    else
      match r with
      | h :: t => (c :: h) :: t
      | [] => [[c]]

/-- Python `str.split(sep, 1)` for a single-character separator, as the pair
(part before the first `sep`, part after it).  When `sep` does not occur the
second component is `none` (Python returns a one-element list). -/
def splitOnceChar (sep : Char) : List Char → List Char × Option (List Char)
  | [] => ([], none)
  | c :: cs =>
    if c = sep then ([], some cs)
    else
      let r := splitOnceChar sep cs
      (c :: r.1, r.2)

/-- Python `int` on a run of ASCII digits. -/
def pyInt (s : List Char) : Nat :=
  s.foldl (fun acc c => 10 * acc + (c.toNat - 48)) 0

/-- `CLI.version_tuple`: `tuple(map(int, version_string.replace('-', '.').split('.')))`. -/
def versionTuple (s : List Char) : List Nat :=
  (splitOnChar '.' (s.map fun c => if c = '-' then '.' else c)).map pyInt

/-- Consume the maximal continuation of a version run after at least one digit
has been read: the `(\d | [\.-]\d)*`-shaped tail of `\d+([\.-]\d+)*`.
Returns (consumed, rest). -/
def takeRunRest : List Char → List Char × List Char
  | [] => ([], [])
  | c :: cs =>
    if c.isDigit then
      let r := takeRunRest cs
      (c :: r.1, r.2)
    else if isSep c then
      match cs with
      | [] => ([], [c])
      | d :: cs2 =>
        if d.isDigit then
          let r := takeRunRest cs2
          (c :: d :: r.1, r.2)
        else ([], c :: d :: cs2)
    else ([], c :: cs)

/-- Decide whether `l` is a valid continuation of a version run (see
`takeRunRest`): a whole-string match of `(\d|[\.-]\d+)*` given that a digit
immediately precedes. -/
def runRest : List Char → Bool
  | [] => true
  | c :: cs =>
    if c.isDigit then runRest cs
    else if isSep c then
      match cs with
      | [] => false
      | d :: cs2 => d.isDigit && runRest cs2
    else false

/-- Whole-string match of the numeric-run regex `\d+([\.-]\d+)*`. -/
def isRunB : List Char → Bool
  | [] => false
  | c :: cs => c.isDigit && runRest cs

/-- `self._re_tag.match(tag)` with `_re_tag = (.*?)(\d+([\.-]\d+)*)(.*)`:
splits a tag into (non-digit lazy head, maximal numeric run starting at
the first digit, greedy tail).  `none` when the tag has no digit. -/
def derive : List Char → Option (List Char × List Char × List Char)
  | [] => none
  | c :: cs =>
    if c.isDigit then
      let r := takeRunRest cs
      some ([], c :: r.1, r.2)
    else
      match derive cs with
      | none => none
      | some (p, r, u) => some (c :: p, r, u)

/-- Whole-string match of `^{re.escape(pre)}(\d+([\.-]\d+)*){re.escape(suf)}$`
(the pattern `check_image` builds from the current tag), returning the
captured numeric run.  The split is unique because the literal head and tail
have fixed lengths. -/
def patMatch (pre suf t : List Char) : Option (List Char) :=
  if pre.length + suf.length < t.length ∧ pre.isPrefixOf t ∧ suf.isSuffixOf t then
    if isRunB ((t.drop pre.length).take (t.length - pre.length - suf.length)) then
      some ((t.drop pre.length).take (t.length - pre.length - suf.length))
    else none
  else none

/-- Python `<` on homogeneous tuples/lists: strict lexicographic order with
"shorter prefix is smaller". -/
def lexLt (lt : α → α → Bool) [DecidableEq α] : List α → List α → Bool
  | _, [] => false
  | [], _ :: _ => true
  | a :: as, b :: bs => lt a b || (decide (a = b) && lexLt lt as bs)

/-- Python `<` on tuples of ints. -/
def natListLt : List Nat → List Nat → Bool :=
  lexLt (fun a b => decide (a < b))

/-- Python `<` on strings (code-point lexicographic). -/
def charListLt : List Char → List Char → Bool :=
  lexLt (fun a b => decide (a.toNat < b.toNat))

/-- Python `<=` on the pairs `(version_tuple, tag_string)` that
`check_image` sorts. -/
def pairLe (a b : List Nat × List Char) : Prop :=
  natListLt a.1 b.1 = true ∨ (a.1 = b.1 ∧ (charListLt a.2 b.2 = true ∨ a.2 = b.2))

instance : DecidableRel pairLe := fun _ _ => by
  unfold pairLe; infer_instance

/-- Python `list.sort()` on the `(version_tuple, tag)` pairs.  `pairLe` is a
total order in which distinct pairs never tie, so the sorted permutation is
unique and any sorting algorithm models `list.sort` exactly. -/
def sortPairs (l : List (List Nat × List Char)) : List (List Nat × List Char) :=
  List.insertionSort pairLe l

/-- `in` on Python strings: substring occurrence test. -/
def isSubstr (pat : List Char) : List Char → Bool
  | [] => pat.isPrefixOf []
  | c :: cs => pat.isPrefixOf (c :: cs) || isSubstr pat cs

/-- Python `str.count(c)` for a single character. -/
def countChar (c : Char) (s : List Char) : Nat :=
  (s.filter fun x => x = c).length

/-- The loop body of `check_image`: collect `(new_version, tag)` for every
registry tag matching the derived pattern with an equal-length, strictly
greater version tuple (in registry order; `check_image` sorts afterwards). -/
def newerTags (pre suf : List Char) (cur : List Nat) (tags : List (List Char)) :
    List (List Nat × List Char) :=
  tags.filterMap fun t =>
    match patMatch pre suf t with
    | some mid =>
      let nv := versionTuple mid
      if cur.length = nv.length ∧ natListLt cur nv then some (nv, t) else none
    | none => none

/-- `CLI.check_image`.  The Tag Source (`get_tags`, a network call) is passed
in as the function `tagsOf` from repository path to its published tag list.
Returns `none` on the two per-reference diagnostics (unsupported registry,
non-semver tag), `some sorted-newer-candidates` otherwise. -/
def checkImage (tagsOf : List Char → List (List Char)) (image tag : List Char) :
    Option (List (List Nat × List Char)) :=
  let part1 := (splitOnceChar '/' image).1
  if countChar '/' image > 1 ∧ (part1.contains '.' ∨ part1.contains ':' ∨ part1 = ("localhost".toList)) then
    none
  else
    match derive tag with
    | none => none
    | some (pre, run, suf) =>
      let cur := versionTuple run
      let repository := if image.contains '/' then image else ("library/".toList) ++ image
      some (sortPairs (newerTags pre suf cur (tagsOf repository)))

/-! ### Python string replace -/

/-- Scanner for `str.replace` with a non-empty needle: replace non-overlapping
occurrences left to right.  The `fuel` argument (structural, any value
`≥ s.length` gives the same result) only serves kernel-reducible
termination. -/
def replaceGo (old nw : List Char) : Nat → List Char → List Char
  | _, [] => []
  | 0, s => s
  | f + 1, c :: cs =>
    if old.isPrefixOf (c :: cs) then nw ++ replaceGo old nw f ((c :: cs).drop old.length)
    else c :: replaceGo old nw f cs

/-- Python `s.replace(old, new)` (all occurrences; for an empty needle Python
interleaves `new` around every character). -/
def pyReplace (s old nw : List Char) : List Char :=
  match old with
  | [] => nw ++ s.flatMap fun c => c :: nw
  | _ :: _ => replaceGo old nw s.length s

/-! ### SHA-1 (`hashlib.sha1(...).hexdigest()`), implemented arithmetically
over `Nat` with all words reduced mod `2 ^ 32`. -/

/-- 2 ^ 32. -/
def m32 : Nat := 4294967296

/-- Bitwise combine two 32-bit words via a function on single bits. -/
def bitCombine (f : Nat → Nat → Nat) (a b : Nat) : Nat :=
  (List.range 32).foldl (fun acc i => acc + f (a / 2 ^ i % 2) (b / 2 ^ i % 2) * 2 ^ i) 0

/-- 32-bit AND. -/
def band32 (a b : Nat) : Nat := bitCombine (fun x y => x * y) a b

/-- 32-bit OR. -/
def bor32 (a b : Nat) : Nat := bitCombine (fun x y => x + y - x * y) a b

/-- 32-bit XOR. -/
def bxor32 (a b : Nat) : Nat := bitCombine (fun x y => (x + y) % 2) a b

/-- 32-bit NOT (valid for `x < 2 ^ 32`). -/
def bnot32 (x : Nat) : Nat := 4294967295 - x

/-- Rotate a 32-bit word left by `n` (valid for `x < 2 ^ 32`, `n ≤ 32`). -/
def rotl32 (n x : Nat) : Nat := x % 2 ^ (32 - n) * 2 ^ n + x / 2 ^ (32 - n)

/-- Big-endian 8-byte encoding of the bit length. -/
def be8 (n : Nat) : List Nat :=
  (List.range 8).map fun i => n / 2 ^ (56 - 8 * i) % 256

/-- SHA-1 message padding. -/
def sha1pad (msg : List Nat) : List Nat :=
  let padlen := (55 + 64 - msg.length % 64) % 64
  msg ++ 128 :: List.replicate padlen 0 ++ be8 (8 * msg.length)

/-- Big-endian 4-byte groups to 32-bit words. -/
def toWords : List Nat → List Nat
  | b1 :: b2 :: b3 :: b4 :: rest =>
    (b1 * 16777216 + b2 * 65536 + b3 * 256 + b4) :: toWords rest
  | _ => []

/-- Extend 16 schedule words to 80. -/
def extendW (ws : List Nat) : List Nat :=
  (List.range 64).foldl
    (fun w _ =>
      let t := w.length
      w ++ [rotl32 1 (bxor32 (bxor32 (w.getD (t - 3) 0) (w.getD (t - 8) 0))
        (bxor32 (w.getD (t - 14) 0) (w.getD (t - 16) 0)))])
    ws

/-- One SHA-1 compression round. -/
def sha1Round (w : List Nat) (st : Nat × Nat × Nat × Nat × Nat) (t : Nat) :
    Nat × Nat × Nat × Nat × Nat :=
  let (a, b, c, d, e) := st
  let f :=
    if t < 20 then bor32 (band32 b c) (band32 (bnot32 b) d)
    else if t < 40 then bxor32 (bxor32 b c) d
    else if t < 60 then bor32 (bor32 (band32 b c) (band32 b d)) (band32 c d)
    else bxor32 (bxor32 b c) d
  let k :=
    if t < 20 then 1518500249
    else if t < 40 then 1859775393
    else if t < 60 then 2400959708
    else 3395469782
  let temp := (rotl32 5 a + f + e + k + w.getD t 0) % m32
  (temp, a, rotl32 30 b, c, d)

/-- Process one 64-byte chunk. -/
def sha1Chunk (h : Nat × Nat × Nat × Nat × Nat) (chunk : List Nat) :
    Nat × Nat × Nat × Nat × Nat :=
  let sched := extendW (toWords chunk)
  let (h0, h1, h2, h3, h4) := h
  let (a, b, c, d, e) := (List.range 80).foldl (sha1Round sched) h
  ((h0 + a) % m32, (h1 + b) % m32, (h2 + c) % m32, (h3 + d) % m32, (h4 + e) % m32)

/-- One lowercase hex digit. -/
def hexDigit (d : Nat) : Char :=
  Char.ofNat (if d < 10 then 48 + d else 87 + d)

/-- Eight hex digits of one 32-bit word. -/
def hexWord (w : Nat) : List Char :=
  (List.range 8).map fun i => hexDigit (w / 2 ^ (28 - 4 * i) % 16)

/-- `hashlib.sha1(msg).hexdigest()` over a byte list. -/
def sha1Hex (msg : List Nat) : List Char :=
  let padded := sha1pad msg
  let (h0, h1, h2, h3, h4) :=
    (List.range (padded.length / 64)).foldl
      (fun h i => sha1Chunk h ((padded.drop (64 * i)).take 64))
      (1732584193, 4023233417, 2562383102, 271733878, 3285377520)
  hexWord h0 ++ hexWord h1 ++ hexWord h2 ++ hexWord h3 ++ hexWord h4

/-- UTF-8 encoding of one character (`str.encode`). -/
def utf8Char (c : Char) : List Nat :=
  let n := c.toNat
  if n < 128 then [n]
  else if n < 2048 then [192 + n / 64, 128 + n % 64]
  else if n < 65536 then [224 + n / 4096, 128 + n / 64 % 64, 128 + n % 64]
  else [240 + n / 262144, 128 + n / 4096 % 64, 128 + n / 64 % 64, 128 + n % 64]

/-- UTF-8 encoding of a string (`str.encode`). -/
def utf8Bytes (s : List Char) : List Nat :=
  s.flatMap utf8Char

/-! ### `CLI.update_stack`, `CLI.create_branch_and_mr`, `CLI.cleanup_branches` -/

/-- The side-effecting git / GitHub steps of `update_stack` and
`create_branch_and_mr`, recorded as an action trace. -/
inductive GitAction where
  | checkoutNew  -- git checkout -b branch
  | commitAll    -- git commit -a -m title
  | push         -- git push origin branch
  | postPR       -- requests.post .../pulls  (raise_for_status)
  | checkoutBase -- git checkout self._base_revision
deriving DecidableEq, Repr

/-- `CLI.create_branch_and_mr`: checkout -b, commit, push, then the
pull-request POST whose `raise_for_status` outcome is the parameter
`postOk` (the Boolean models whether the GitHub API returned 2xx). -/
def createBranchAndMr (postOk : Bool) : List GitAction × Bool :=
  ([GitAction.checkoutNew, GitAction.commitAll, GitAction.push, GitAction.postPR], postOk)

/-- A bump description line of `update_stack`:
`f'* bump {original[0]} from {original[1]} to {newest[1]}'`. -/
def bumpLine (orig0 orig1 newTag : List Char) : List Char :=
  ("* bump ".toList) ++ orig0 ++ (" from ".toList) ++ orig1 ++ (" to ".toList) ++ newTag

/-- One plan entry: ((locator, current tag), sorted newer candidates). -/
abbrev PlanEntry := (List Char × List Char) × List (List Nat × List Char)

/-- The `cksum` list accumulated by the `update_stack` loop: one bump line per
entry with a non-empty newer-tag list, in plan order (`newer_tags[-1]` is the
chosen newest candidate). -/
def bumps (data : List PlanEntry) : List (List Char) :=
  data.filterMap fun e => e.2.getLast?.map fun newest => bumpLine e.1.1 e.1.2 newest.2

/-- The text-rewriting step of the `update_stack` loop for one entry:
`s.replace(f'{original[0]}{sep}{original[1]}', f'{original[0]}{sep}{newest[1]}')`
where the `':'` separator is inserted only when the locator does not already
carry it (extra-field locators do). -/
def applyEntry (s : List Char) (e : PlanEntry) : List Char :=
  match e.2.getLast? with
  | none => s
  | some newest =>
    if e.1.1.contains ':' then
      pyReplace s (e.1.1 ++ e.1.2) (e.1.1 ++ newest.2)
    else
      pyReplace s (e.1.1 ++ ':' :: e.1.2) (e.1.1 ++ ':' :: newest.2)

/-- The mutated file text after the `update_stack` loop (the loop updates the
text and the `cksum` list independently, so it is the fold of `applyEntry`). -/
def newText (s : List Char) (data : List PlanEntry) : List Char :=
  data.foldl applyEntry s

/-- `f'autoupdater/{stack.stem}_{cksumhex}'` with
`cksumhex = hashlib.sha1(''.join(cksum).encode()).hexdigest()`: a function of
the file's stem and its ordered bump lines only. -/
def branchNameOf (stem : List Char) (bumpLines : List (List Char)) : List Char :=
  ("autoupdater/".toList) ++ stem ++ '_' :: sha1Hex (utf8Bytes bumpLines.flatten)

/-- The observable result of one `update_stack` call.  `outcome` is the Python
return value, `none` when an exception escaped; `branchUsed` is the local
`branch` variable when reached; `written` is the text passed to
`stack.write_text` when that call happened. -/
structure UpdateResult where
  branchUsed : Option (List Char)
  outcome : Option (Bool × Option (List Char))
  written : Option (List Char)
  actions : List GitAction
deriving DecidableEq, Repr

/-- `CLI.update_stack`.  `branchesText` is the cached `git branch -a` output;
the existence check is the source's substring test `f'{branch}\n' in
self.branches`.  On a non-2xx pull-request response `raise_for_status`
raises before the final `git checkout <base revision>` line runs. -/
def updateStack (postOk : Bool) (stem fileText branchesText : List Char)
    (data : List PlanEntry) : UpdateResult :=
  let ck := bumps data
  if ck.isEmpty then ⟨none, some (false, none), none, []⟩
  else
    let branch := branchNameOf stem ck
    if isSubstr (branch ++ ['\n']) branchesText then
      ⟨some branch, some (false, some branch), none, []⟩
    else
      let s := newText fileText data
      let (acts, ok) := createBranchAndMr postOk
      if ok then ⟨some branch, some (true, some branch), some s, acts ++ [GitAction.checkoutBase]⟩
      else ⟨some branch, none, some s, acts⟩

/-- Python `str.strip()` (ASCII whitespace). -/
def pyStrip (s : List Char) : List Char :=
  ((s.dropWhile isWs).reverse.dropWhile isWs).reverse

/-- Python `str.splitlines()` for `'\n'`-separated text (no trailing empty
line). -/
def pySplitlines (s : List Char) : List (List Char) :=
  if s.isEmpty then []
  else
    let p := splitOnChar '\n' s
    if p.getLast? = some [] then p.dropLast else p

/-- `b.strip().split('/', 2)[-1]`: the branch name after stripping at most two
leading path components (`remotes/origin/`). -/
def extractName (l : List Char) : List Char :=
  match (splitOnceChar '/' (pyStrip l)).2 with
  | none => pyStrip l
  | some r =>
    match (splitOnceChar '/' r).2 with
    | none => r
    | some r2 => r2

/-- `CLI.cleanup_branches`, returning the list of branch names it deletes
(`git push origin :branch`), in enumeration order. -/
def cleanupBranches (stem branchesText : List Char) (keep : List (List Char)) :
    List (List Char) :=
  let pfx := ("autoupdater/".toList) ++ stem ++ ['_']
  let elen := pfx.length + 40
  (pySplitlines branchesText).filterMap fun b =>
    let e := extractName b
    if pfx.isPrefixOf e ∧ e.length = elen ∧ e ∉ keep then some e else none

/-! ### Extra-field template transform (`CLI._proc_stack_extra_fields`) -/

/-- Python `x2[p1:-p2]` on a string: empty when `p2 = 0`, else the slice
dropping `p1` from the front and `p2` from the back. -/
def pySlice (s : List Char) (p1 p2 : Nat) : List Char :=
  if p2 = 0 then [] else (s.take (s.length - p2)).drop p1

/-- The reverse template transform of `_proc_stack_extra_fields`:
`tag_template = field_template.split(':')[1].split('?', 1)`,
`p1, p2 = len(tag_template[0]), len(tag_template[1])`, result `x2[p1:-p2]`.
(The source raises `IndexError` when the template lacks `':'` or its tag
portion lacks `'?'`; every use below supplies both.) -/
def invTag (tmpl x2 : List Char) : List Char :=
  let tt := (splitOnChar ':' tmpl).getD 1 []
  let parts := splitOnceChar '?' tt
  pySlice x2 parts.1.length (parts.2.getD []).length

/-! ### Reference extraction (`CLI._proc_stack_image`, `_proc_stack_jsonpath`,
`_proc_stack_extra_fields`, `proc_stack`) -/

/-- Split the lazy group `(.+?)` from the greedy tail `(.+)` of `_re_image` at
the first `':'` that has at least one character on each side and at least one
character after it on the same line. -/
def splitColonAux (acc : List Char) : List Char → Option (List Char × List Char)
  | [] => none
  | c :: cs =>
    if c = ':' ∧ cs ≠ [] then some (acc.reverse, cs)
    else splitColonAux (c :: acc) cs

/-- `(.+?):(.+)` on the remainder of a line (followed in the pattern only by
the optional `["']?`, which can always match empty). -/
def splitColon : List Char → Option (List Char × List Char)
  | [] => none
  | a :: cs => splitColonAux [a] cs

/-- `["']?(.+?):(.+)["']?`: the greedy optional quote is consumed when doing
so still lets the rest match, otherwise the regex backtracks. -/
def parseNameTag (r : List Char) : Option (List Char × List Char) :=
  match r with
  | [] => none
  | c :: cs =>
    if c = '"' ∨ c = '\'' then
      match splitColon cs with
      | some x => some x
      | none => splitColon (c :: cs)
    else splitColon (c :: cs)

/-- Character class `[a-z\-]` of the anchor group. -/
def isAnchChar (c : Char) : Bool :=
  ('a' ≤ c && c ≤ 'z') || c = '-'

/-- `(&[a-z\-]+ )?["']?(.+?):(.+)["']?` applied after the literal
`image: ` (the anchor group is trimmed by the source's `image = image[1:]`,
so only (name, tag) is returned). -/
def parseAfterImage (r : List Char) : Option (List Char × List Char) :=
  match r with
  | '&' :: cs =>
    let run := cs.takeWhile isAnchChar
    let rest := cs.drop run.length
    if run ≠ [] ∧ rest.head? = some ' ' then
      match parseNameTag (rest.drop 1) with
      | some x => some x
      | none => parseNameTag r
    else parseNameTag r
  | _ => parseNameTag r

/-- Scan one line for the leftmost match of `_re_image`
(`\s*image: (&[a-z\-]+ )?["']?(.+?):(.+)["']?`); the greedy `(.+)` extends to
the end of the line, so a line yields at most one match. -/
def lineImageScan : List Char → Option (List Char × List Char)
  | [] => none
  | c :: cs =>
    if ("image: ".toList).isPrefixOf (c :: cs) then
      match parseAfterImage ((c :: cs).drop 7) with
      | some x => some x
      | none => lineImageScan cs
    else lineImageScan cs

/-- `self._re_image.findall(s)` (after anchor trimming): matches cannot span
lines, so findall is the per-line scan over `'\n'`-separated lines. -/
def reImageFindall (s : List Char) : List (List Char × List Char) :=
  (splitOnChar '\n' s).filterMap lineImageScan

/-- The literal head of the disable-annotation pattern. -/
def markerL : List Char := "# autoupdater: disable".toList

/-- Whether the region between the marker and an occurrence of the image name
matches `\s+[^\n]*`: a non-empty whitespace run (newlines allowed, DOTALL)
followed by newline-free text. -/
def disabledRegion (r : List Char) : Bool :=
  let a := (r.takeWhile isWs).length
  decide (1 ≤ a) && !((r.drop a).contains '\n')

/-- `re.findall(r'# autoupdater: disable\s+[^\n]*' + image, s, re.DOTALL)`
is non-empty.  The interpolated image name is modelled as a literal (the
source does not `re.escape` it, so for names containing regex metacharacters
the source matches at least these occurrences). -/
def disabledFor (s image : List Char) : Bool :=
  (List.range (s.length + 1)).any fun i =>
    markerL.isPrefixOf (s.drop i) &&
    (List.range (s.length + 1)).any fun p =>
      decide (i + markerL.length < p) && image.isPrefixOf (s.drop p) &&
      disabledRegion ((s.take p).drop (i + markerL.length))

/-- `CLI._proc_stack_image`: every `_re_image` match that is not annotated as
disabled and whose `check_image` call returns a candidate list. -/
def procStackImage (tagsOf : List Char → List (List Char)) (s : List Char) :
    List PlanEntry :=
  (reImageFindall s).filterMap fun im =>
    if disabledFor s im.1 then none
    else (checkImage tagsOf im.1 im.2).map fun updates => (im, updates)

/-- `CLI._proc_stack_jsonpath`.  Its source body is line-for-line identical to
`_proc_stack_image` — the configured JSONPath expressions are never consulted;
only the guard `if not self._image_jsonpath: return []` differs. -/
def procStackJsonpath (imageJsonpath : Option (List Char))
    (tagsOf : List Char → List (List Char)) (s : List Char) : List PlanEntry :=
  match imageJsonpath with
  | none => []
  | some _ => procStackImage tagsOf s

/-- Parse `\s*:\s*` plus the greedy `(.*)` right after an occurrence of the
field name `k`; returns `_re_field`'s two groups (`raw_field`, value). -/
def fieldParseAt (k r : List Char) : Option (List Char × List Char) :=
  let w1 := r.takeWhile isWs
  match r.drop w1.length with
  | ':' :: r2 =>
    let w2 := r2.takeWhile isWs
    some (k ++ w1 ++ ':' :: w2, r2.drop w2.length)
  | _ => none

/-- Scan one line for the leftmost match of `\s*({k}\s*:\s*)(.*)`. -/
def fieldScan (k : List Char) : List Char → Option (List Char × List Char)
  | [] => none
  | c :: cs =>
    if k.isPrefixOf (c :: cs) then
      match fieldParseAt k ((c :: cs).drop k.length) with
      | some x => some x
      | none => fieldScan k cs
    else fieldScan k cs

/-- `field_re.findall(data)` for one configured extra field. -/
def fieldFindall (k s : List Char) : List (List Char × List Char) :=
  (splitOnChar '\n' s).filterMap (fieldScan k)

/-- `CLI._proc_stack_extra_fields`: for each configured (field name, template)
pair, each matched field value is substituted into the template, checked via
`check_image`, and the discovered updates are mapped back through the inverse
template transform `invTag`.  No disable-annotation check is performed by this
strategy.  (A template without `':'` raises `IndexError` in the source; it is
modelled as skipping and never exercised below.) -/
def procStackExtraFields (extraFields : List (List Char × List Char))
    (tagsOf : List Char → List (List Char)) (s : List Char) : List PlanEntry :=
  extraFields.flatMap fun kt =>
    (fieldFindall kt.1 s).filterMap fun rm =>
      let image := pyReplace kt.2 ['?'] rm.2
      match splitOnceChar ':' image with
      | (_, none) => none
      | (img0, some img1) =>
        match checkImage tagsOf img0 img1 with
        | none => none
        | some updates =>
          some ((rm.1, rm.2), updates.map fun u => (u.1, invTag kt.2 u.2))

/-- `CLI.proc_stack`: concatenation of the three strategies' results, in
source order (extra fields, inline image, jsonpath). -/
def procStack (extraFields : List (List Char × List Char))
    (imageJsonpath : Option (List Char)) (tagsOf : List Char → List (List Char))
    (s : List Char) : List PlanEntry :=
  procStackExtraFields extraFields tagsOf s ++ procStackImage tagsOf s ++
    procStackJsonpath imageJsonpath tagsOf s

/-- Spec-side characterization for claim C1, following the spec's words (to
be compared with the source's constructed-pattern filter in `check_image`): a
candidate `x` is a newer candidate for a current tag split into
`(pre, run, suf)` iff `x`'s OWN derived prefix and suffix are byte-identical
to `pre` and `suf`, its version tuple has the same segment count as the
current tuple, and it is strictly greater under lexicographic integer
comparison; the reported tuple is then `x`'s tuple. -/
def specNewerTuple (pre run suf x : List Char) : Option (List Nat) :=
  match derive x with
  | some (p, r, u) =>
    if p = pre ∧ u = suf ∧ (versionTuple r).length = (versionTuple run).length ∧
        natListLt (versionTuple run) (versionTuple r) = true then
      some (versionTuple r)
    else none
  | none => none

/-! ## Theorems -/

/-- Claim C5 (code evaluation): a repository name with exactly two path
segments whose first segment is host-like (`ghcr.io/homepage`) is NOT
excluded by `check_image` — the guard only fires for `image.count('/') > 1`,
i.e. at least three segments — while `ghcr.io/gethomepage/homepage` is
excluded.  The two-segment host-like reference is processed against the
supplied tag list instead of being skipped with a diagnostic. -/
theorem checkImage_registry_guard_gap :
    checkImage (fun _ => [("1.1".toList)]) (("ghcr.io/homepage".toList)) (("1.0".toList)) =
      some [([1, 1], ("1.1".toList))] ∧
    checkImage (fun _ => [("1.1".toList)]) (("ghcr.io/gethomepage/homepage".toList)) (("1.0".toList)) =
      none := by
  constructor
  · decide
  · decide

/-- Claim C6 (code evaluation): with an image-name JSONPath configured,
`_proc_stack_jsonpath` does not resolve the expression against the structured
document — on a canonical Helm-values document (`image.repository` /
`image.tag` fields) it extracts nothing, because its body is a verbatim copy
of `_proc_stack_image` scanning for inline `image: name:tag` lines. -/
theorem procStackJsonpath_ignores_jsonpath :
    procStackJsonpath (some ("image.repository".toList)) (fun _ => [("v3.99.0".toList)])
      (("image:\n  repository: traefik\n  tag: v3.5.3\n".toList)) = [] ∧
    procStackJsonpath (some ("image.repository".toList)) (fun _ => [("v3.99.0".toList)])
      (("image:\n  repository: traefik\n  tag: v3.5.3\n".toList)) =
      procStackImage (fun _ => [("v3.99.0".toList)])
        (("image:\n  repository: traefik\n  tag: v3.5.3\n".toList)) := by
  constructor
  · decide
  · rfl

/-- Claim C4 (counterexample): for the extra-field template `a:?` — tag
portion `<prefix>?<suffix>` with both prefix and suffix empty — substituting
the value `1.2` into the template and inverting does not recover `1.2`: the
source's slice `x2[p1:-p2]` is `x2[0:-0] = ''` when the suffix is empty. -/
theorem invTag_empty_suffix_no_roundtrip :
    invTag (("a:?".toList))
      ((splitOnceChar ':' (pyReplace (("a:?".toList)) ['?'] (("1.2".toList)))).2.getD []) ≠
      (("1.2".toList)) := by
  decide

theorem splitOnChar_not_mem {sep : Char} {a : List Char} (h : sep ∉ a) :
    splitOnChar sep a = [a] := by
  induction a with
  | nil => rfl
  | cons x xs ih =>
    have hx : x ≠ sep := fun hc => h (hc ▸ List.mem_cons_self x xs)
    have hxs : sep ∉ xs := fun hc => h (List.mem_cons_of_mem _ hc)
    simp only [splitOnChar, if_neg hx, ih hxs]

theorem splitOnChar_append {sep : Char} {a : List Char} (b : List Char) (h : sep ∉ a) :
    splitOnChar sep (a ++ sep :: b) = a :: splitOnChar sep b := by
  induction a with
  | nil => simp [splitOnChar]
  | cons x xs ih =>
    have hx : x ≠ sep := fun hc => h (hc ▸ List.mem_cons_self x xs)
    have hxs : sep ∉ xs := fun hc => h (List.mem_cons_of_mem _ hc)
    have ih2 := ih hxs
    simp only [List.cons_append, splitOnChar, if_neg hx, List.append_eq, ih2]

theorem splitOnceChar_append {sep : Char} {a : List Char} (b : List Char) (h : sep ∉ a) :
    splitOnceChar sep (a ++ sep :: b) = (a, some b) := by
  induction a with
  | nil => simp [splitOnceChar]
  | cons x xs ih =>
    have hx : x ≠ sep := fun hc => h (hc ▸ List.mem_cons_self x xs)
    have hxs : sep ∉ xs := fun hc => h (List.mem_cons_of_mem _ hc)
    simp only [List.cons_append, splitOnceChar, if_neg hx, List.append_eq, ih hxs]

theorem pySlice_append (pre v suf : List Char) (h : suf ≠ []) :
    pySlice (pre ++ v ++ suf) pre.length suf.length = v := by
  unfold pySlice
  rw [if_neg (by simpa using fun hc => h (List.length_eq_zero.mp hc))]
  have hlen : (pre ++ v ++ suf).length - suf.length = (pre ++ v).length := by
    simp only [List.length_append]
    omega
  rw [show pre ++ v ++ suf = (pre ++ v) ++ suf from by simp, hlen, List.take_left,
    List.drop_left]

/-- Claim C4 (amended): for an extra-field template `repo:<prefix>?<suffix>`
whose components are free of `':'`, whose prefix is free of `'?'`, and whose
suffix is NON-EMPTY, the reverse template transform of
`_proc_stack_extra_fields` recovers exactly the substituted value from any
tag of the form `<prefix> ++ v ++ <suffix>` (only the placeholder substring
is recovered, the decorative template text is stripped).  The claim fails
when the suffix is empty (see the counterexample). -/
theorem invTag_roundtrip (repo pre suf v : List Char)
    (h1 : ':' ∉ repo) (h2 : ':' ∉ pre) (h3 : ':' ∉ suf) (h4 : '?' ∉ pre)
    (h5 : suf ≠ []) :
    invTag (repo ++ ':' :: (pre ++ '?' :: suf)) (pre ++ v ++ suf) = v := by
  unfold invTag
  have hrest : ':' ∉ pre ++ '?' :: suf := by
    intro hc
    rcases List.mem_append.mp hc with hc | hc
    · exact h2 hc
    · rcases List.mem_cons.mp hc with hc | hc
      · cases hc
      · exact h3 hc
  rw [splitOnChar_append _ h1, splitOnChar_not_mem hrest]
  simp only [List.getD_cons_succ, List.getD_cons_zero, splitOnceChar_append _ h4]
  exact pySlice_append pre v suf h5

/-- Claim C4 (witness): concrete round trip for the template
`portainer/portainer-ce:?-alpine` and value `2.24.0`. -/
theorem invTag_roundtrip_witness :
    invTag (("portainer/portainer-ce".toList) ++ ':' :: ([] ++ '?' :: ("-alpine".toList)))
      ([] ++ ("2.24.0".toList) ++ ("-alpine".toList)) = ("2.24.0".toList) :=
  invTag_roundtrip ("portainer/portainer-ce".toList) [] ("-alpine".toList)
    ("2.24.0".toList) (by decide) (by decide) (by decide) (by decide) (by decide)

/-- Claim C9 (counterexample): a branch listed in local `git branch` format
(a bare name, no `remotes/<remote>/` head) whose name starts with
`autoupdater/<stem>_` and has exactly prefix-plus-40 length and is not kept
is NOT deleted by `cleanup_branches`: `b.strip().split('/', 2)[-1]` strips
the branch name's own `autoupdater/` head, so the prefix test fails. -/
theorem cleanupBranches_misses_local_format :
    (("autoupdater/stack_".toList)).isPrefixOf
        (("autoupdater/stack_aaaaaaaaaaaaaaaaaaaaaaaaaaaaaaaaaaaaaaaa".toList)) = true ∧
    (("autoupdater/stack_aaaaaaaaaaaaaaaaaaaaaaaaaaaaaaaaaaaaaaaa".toList)).length =
      (("autoupdater/stack_".toList)).length + 40 ∧
    cleanupBranches (("stack".toList))
      (("autoupdater/stack_aaaaaaaaaaaaaaaaaaaaaaaaaaaaaaaaaaaaaaaa\n".toList)) [] = [] := by
  refine ⟨by decide, by decide, by decide⟩

theorem pyStrip_ws_cons {c : Char} (l : List Char) (h : isWs c = true) :
    pyStrip (c :: l) = pyStrip l := by
  simp [pyStrip, List.dropWhile_cons, h]

theorem pyStrip_no_ws {l : List Char} (h : ∀ c ∈ l, isWs c = false) :
    pyStrip l = l := by
  have h1 : l.dropWhile isWs = l := by
    cases l with
    | nil => rfl
    | cons c cs => simp only [List.dropWhile_cons, h c (List.mem_cons_self c cs)]; rfl
  have h2 : l.reverse.dropWhile isWs = l.reverse := by
    cases hl : l.reverse with
    | nil => rfl
    | cons c cs =>
      have hc : c ∈ l := by
        rw [← List.mem_reverse, hl]; exact List.mem_cons_self c cs
      simp only [List.dropWhile_cons, h c hc]; rfl
  simp only [pyStrip, h1, h2, List.reverse_reverse]

/-- Claim C9 (amended): `cleanup_branches` deletes exactly the enumerated
lines whose EXTRACTED name — the whitespace-stripped line with everything up
to its second `'/'` removed, i.e. the name after a `remotes/<remote>/` head —
starts with `autoupdater/<stem>_`, has exactly that prefix length plus 40
characters, and is not kept; in particular for a remote-format line
`  remotes/origin/<name>` the extracted name is `<name>` itself.  Local-format
lines (fewer than two `'/'` before the name) are never matched (see the
counterexample). -/
theorem cleanupBranches_deletes_exactly (stem txt : List Char) (keep : List (List Char)) :
    (∀ x, x ∈ cleanupBranches stem txt keep ↔
      ∃ line ∈ pySplitlines txt, extractName line = x ∧
        ((("autoupdater/".toList) ++ stem ++ ['_']).isPrefixOf x ∧
          x.length = (("autoupdater/".toList) ++ stem ++ ['_']).length + 40 ∧ x ∉ keep)) ∧
    ∀ nm : List Char, (∀ c ∈ nm, isWs c = false) →
      extractName (("  remotes/origin/".toList) ++ nm) = nm := by
  constructor
  · intro x
    simp only [cleanupBranches, List.mem_filterMap]
    constructor
    · rintro ⟨line, hline, hf⟩
      refine ⟨line, hline, ?_⟩
      split at hf
      · next hc => cases hf; exact ⟨rfl, hc⟩
      · cases hf
    · rintro ⟨line, hline, hx, hcond⟩
      refine ⟨line, hline, ?_⟩
      subst hx
      rw [if_pos hcond]
  · intro nm hnm
    have hshape : ("  remotes/origin/".toList) ++ nm =
        ' ' :: ' ' :: ((("remotes/origin/".toList)) ++ nm) := rfl
    have hdec : ∀ c ∈ (("remotes/origin/".toList)), isWs c = false := by decide
    have hall : ∀ c ∈ (("remotes/origin/".toList)) ++ nm, isWs c = false := by
      intro c hc
      rcases List.mem_append.mp hc with hc | hc
      · exact hdec c hc
      · exact hnm c hc
    have e1 : splitOnceChar '/' ((("remotes".toList)) ++ '/' :: ((("origin".toList)) ++ '/' :: nm)) =
        ((("remotes".toList)), some ((("origin".toList)) ++ '/' :: nm)) :=
      splitOnceChar_append _ (by decide)
    have e2 : splitOnceChar '/' ('o' :: 'r' :: 'i' :: 'g' :: 'i' :: 'n' :: '/' :: nm) =
        ((("origin".toList)), some nm) :=
      @splitOnceChar_append '/' (("origin".toList)) nm (by decide)
    unfold extractName
    rw [hshape, pyStrip_ws_cons _ (by decide), pyStrip_ws_cons _ (by decide),
      pyStrip_no_ws hall,
      show (("remotes/origin/".toList)) ++ nm =
        (("remotes".toList)) ++ '/' :: ((("origin".toList)) ++ '/' :: nm) from rfl,
      e1]
    simp [e2]

/-- Claim C9 (witness): the amended characterization applied concretely — a
remote-format line's extracted name is the branch name itself. -/
theorem cleanupBranches_deletes_exactly_witness :
    extractName (("  remotes/origin/".toList) ++ ("autoupdater/stack_x".toList)) =
      ("autoupdater/stack_x".toList) :=
  (cleanupBranches_deletes_exactly (("stack".toList)) [] []).2
    (("autoupdater/stack_x".toList)) (by decide)

theorem bumps_ne_nil {data : List PlanEntry} (h : ∃ e ∈ data, e.2 ≠ []) :
    (bumps data).isEmpty = false := by
  obtain ⟨e, he, hne⟩ := h
  rw [List.isEmpty_eq_false]
  intro hnil
  have hsome : e.2.getLast?.isSome := by
    cases hl : e.2.getLast? with
    | none => exact absurd (List.getLast?_eq_none_iff.mp hl) hne
    | some _ => rfl
  obtain ⟨x, hx⟩ := Option.isSome_iff_exists.mp hsome
  have hmem : bumpLine e.1.1 e.1.2 x.2 ∈ bumps data := by
    rw [bumps, List.mem_filterMap]
    exact ⟨e, he, by rw [hx]; rfl⟩
  rw [hnil] at hmem
  cases hmem

/-- Claim C2: when the plan has at least one non-empty candidate list and the
computed branch `autoupdater/<stem>_<digest>` already occurs (followed by a
newline) in the cached branch listing, `update_stack` returns
`(False, branch)`: the file is not written, no git/GitHub action is taken and
no proposal is opened.  Since the branch name is a pure function of the stem
and the plan, a re-run with unchanged registry tags and unchanged source
files recomputes the same branch, finds it in the branch list, and therefore
performs zero writes and zero proposals. -/
theorem updateStack_skips_existing_branch (postOk : Bool)
    (stem fileText branchesText : List Char) (data : List PlanEntry)
    (h1 : ∃ e ∈ data, e.2 ≠ [])
    (h2 : isSubstr (branchNameOf stem (bumps data) ++ ['\n']) branchesText = true) :
    updateStack postOk stem fileText branchesText data =
      ⟨some (branchNameOf stem (bumps data)),
        some (false, some (branchNameOf stem (bumps data))), none, []⟩ := by
  have hck := bumps_ne_nil h1
  simp [updateStack, hck, h2]

/-- Claim C3: the `branch` computed by `update_stack` is exactly
`autoupdater/<stem>_<sha1 hex of the concatenated bump lines>` where the bump
lines are taken from the plan entries with non-empty candidate lists in plan
(extraction) order — a function of the stem and the ordered bump list alone:
the statement holds for every `postOk`, file text and branch listing. -/
theorem updateStack_branch_deterministic (postOk : Bool)
    (stem fileText branchesText : List Char) (data : List PlanEntry)
    (h1 : ∃ e ∈ data, e.2 ≠ []) :
    (updateStack postOk stem fileText branchesText data).branchUsed =
      some (branchNameOf stem (bumps data)) := by
  have hck := bumps_ne_nil h1
  simp only [updateStack, hck, Bool.false_eq_true, if_false, createBranchAndMr]
  split
  · rfl
  · cases postOk <;> rfl

set_option maxRecDepth 100000 in
/-- Claim C2 (witness): concrete run whose branch
`autoupdater/stack_<sha1 of "* bump nginx from 1.19 to 1.20">` is already in
the branch listing: no write, no action, `(False, branch)`. -/
theorem updateStack_skips_existing_branch_witness :
    updateStack true (("stack".toList)) (("  image: nginx:1.19\n".toList))
      (("  remotes/origin/autoupdater/stack_470f184159e338fe7df324b5d6d0d63a76cc0a05\n".toList))
      [(((("nginx".toList)), (("1.19".toList))), [([1, 20], (("1.20".toList)))])] =
      ⟨some (branchNameOf (("stack".toList))
          (bumps [(((("nginx".toList)), (("1.19".toList))), [([1, 20], (("1.20".toList)))])])),
        some (false, some (branchNameOf (("stack".toList))
          (bumps [(((("nginx".toList)), (("1.19".toList))), [([1, 20], (("1.20".toList)))])]))),
        none, []⟩ :=
  updateStack_skips_existing_branch true (("stack".toList)) (("  image: nginx:1.19\n".toList))
    (("  remotes/origin/autoupdater/stack_470f184159e338fe7df324b5d6d0d63a76cc0a05\n".toList))
    [(((("nginx".toList)), (("1.19".toList))), [([1, 20], (("1.20".toList)))])]
    (by decide) (by decide)

/-- Claim C3 (witness): the deterministic branch name at a concrete plan. -/
theorem updateStack_branch_deterministic_witness :
    (updateStack false (("x".toList)) [] []
        [(((("nginx".toList)), (("1.19".toList))), [([1, 20], (("1.20".toList)))])]).branchUsed =
      some (branchNameOf (("x".toList))
        (bumps [(((("nginx".toList)), (("1.19".toList))), [([1, 20], (("1.20".toList)))])])) :=
  updateStack_branch_deterministic false (("x".toList)) [] []
    [(((("nginx".toList)), (("1.19".toList))), [([1, 20], (("1.20".toList)))])] (by decide)

/-- Claim C8 (counterexample): a concrete `update_stack` run in which the
pull-request POST fails (`postOk = false`): the branch is created, committed
and pushed and the POST is attempted, but the base revision is never checked
out again — the exception from `raise_for_status` escapes before the
`git checkout <base>` line, so no restore happens. -/
theorem updateStack_no_restore_on_pr_failure :
    GitAction.checkoutBase ∉
      (updateStack false (("stack".toList)) (("  image: nginx:1.19\n".toList))
        (("  main\n".toList))
        [(((("nginx".toList)), (("1.19".toList))), [([1, 20], (("1.20".toList)))])]).actions ∧
    GitAction.postPR ∈
      (updateStack false (("stack".toList)) (("  image: nginx:1.19\n".toList))
        (("  main\n".toList))
        [(((("nginx".toList)), (("1.19".toList))), [([1, 20], (("1.20".toList)))])]).actions ∧
    (updateStack false (("stack".toList)) (("  image: nginx:1.19\n".toList))
        (("  main\n".toList))
        [(((("nginx".toList)), (("1.19".toList))), [([1, 20], (("1.20".toList)))])]).outcome =
      none := by
  refine ⟨by decide, by decide, by decide⟩

/-- Claim C8 (amended): when `update_stack` proceeds to create a proposal
branch, the base revision is checked out again (last action) only if the
pull-request call succeeds; when the call fails the exception propagates
(`outcome = none`) and the restore action never runs. -/
theorem updateStack_restore_iff_pr_success (stem fileText branchesText : List Char)
    (data : List PlanEntry)
    (h1 : ∃ e ∈ data, e.2 ≠ [])
    (h2 : isSubstr (branchNameOf stem (bumps data) ++ ['\n']) branchesText = false) :
    (updateStack true stem fileText branchesText data).actions =
      [GitAction.checkoutNew, GitAction.commitAll, GitAction.push, GitAction.postPR,
        GitAction.checkoutBase] ∧
    (updateStack false stem fileText branchesText data).actions =
      [GitAction.checkoutNew, GitAction.commitAll, GitAction.push, GitAction.postPR] ∧
    (updateStack false stem fileText branchesText data).outcome = none := by
  have hck := bumps_ne_nil h1
  refine ⟨?_, ?_, ?_⟩ <;> simp [updateStack, hck, h2, createBranchAndMr]

/-- Claim C8 (amended, witness): the restore-iff-success statement at a
concrete plan whose branch is not yet in the branch listing. -/
theorem updateStack_restore_iff_pr_success_witness :
    (updateStack true (("stack".toList)) (("  image: nginx:1.19\n".toList)) (("  main\n".toList))
        [(((("nginx".toList)), (("1.19".toList))), [([1, 20], (("1.20".toList)))])]).actions =
      [GitAction.checkoutNew, GitAction.commitAll, GitAction.push, GitAction.postPR,
        GitAction.checkoutBase] ∧
    (updateStack false (("stack".toList)) (("  image: nginx:1.19\n".toList)) (("  main\n".toList))
        [(((("nginx".toList)), (("1.19".toList))), [([1, 20], (("1.20".toList)))])]).actions =
      [GitAction.checkoutNew, GitAction.commitAll, GitAction.push, GitAction.postPR] ∧
    (updateStack false (("stack".toList)) (("  image: nginx:1.19\n".toList)) (("  main\n".toList))
        [(((("nginx".toList)), (("1.19".toList))), [([1, 20], (("1.20".toList)))])]).outcome =
      none :=
  updateStack_restore_iff_pr_success (("stack".toList)) (("  image: nginx:1.19\n".toList))
    (("  main\n".toList))
    [(((("nginx".toList)), (("1.19".toList))), [([1, 20], (("1.20".toList)))])]
    (by decide) (by decide)

/-- Claim C7 (counterexample): a disable annotation naming
`portainer/portainer-ce` precedes the extra-field reference (the source's own
disable pattern matches, first conjunct), yet the reference appears in the
`proc_stack` plan with its newer candidate: `_proc_stack_extra_fields`
performs no disable-annotation check. -/
theorem procStack_extra_field_ignores_disable :
    disabledFor
      (("# autoupdater: disable portainer/portainer-ce\nportainer_version: 2.21.0\n".toList))
      (("portainer/portainer-ce".toList)) = true ∧
    procStack [((("portainer_version".toList)), (("portainer/portainer-ce:?-alpine".toList)))]
      none (fun _ => [(("2.24.0-alpine".toList)), (("2.25.0".toList))])
      (("# autoupdater: disable portainer/portainer-ce\nportainer_version: 2.21.0\n".toList)) =
      [((("portainer_version: ".toList), (("2.21.0".toList))),
        [([2, 24, 0], (("2.24.0".toList)))])] := by
  refine ⟨by decide, by decide⟩

/-- Claim C7 (amended): for the inline-image strategy (and its jsonpath
duplicate), a reference whose repository name is covered by a disable
annotation (the source's pattern matches) never appears in that strategy's
output, whatever newer tags the registry offers; the extra-field strategy,
by contrast, performs no annotation check (see the counterexample). -/
theorem procStackImage_excludes_disabled (tagsOf : List Char → List (List Char))
    (s name : List Char) (ijp : Option (List Char))
    (h : disabledFor s name = true) :
    ∀ tag upd, ((name, tag), upd) ∉ procStackImage tagsOf s ∧
      ((name, tag), upd) ∉ procStackJsonpath ijp tagsOf s := by
  intro tag upd
  have himg : ((name, tag), upd) ∉ procStackImage tagsOf s := by
    intro hmem
    simp only [procStackImage, List.mem_filterMap] at hmem
    obtain ⟨im, _hin, him⟩ := hmem
    by_cases hd : disabledFor s im.1 = true
    · rw [if_pos hd] at him
      cases him
    · rw [if_neg hd] at him
      have him1 : im.1 = name := by
        cases hc : checkImage tagsOf im.1 im.2 with
        | none => rw [hc] at him; cases him
        | some u =>
          rw [hc] at him
          simp only [Option.map_some', Option.some.injEq, Prod.mk.injEq] at him
          rw [him.1]
      rw [him1] at hd
      exact hd h
  refine ⟨himg, ?_⟩
  cases ijp with
  | none => simp [procStackJsonpath]
  | some j => exact himg

/-- Claim C7 (witness): the amended exclusion applied concretely — a disabled
`nginx` inline reference is absent from the inline strategy's output. -/
theorem procStackImage_excludes_disabled_witness :
    (((("nginx".toList)), (("1.19".toList))),
      ([([1, 20], (("1.20".toList)))] : List (List Nat × List Char))) ∉
      procStackImage (fun _ => [(("1.20".toList))])
        (("# autoupdater: disable nginx\n  image: nginx:1.19\n".toList)) :=
  (procStackImage_excludes_disabled (fun _ => [(("1.20".toList))])
    (("# autoupdater: disable nginx\n  image: nginx:1.19\n".toList)) (("nginx".toList)) none
    (by decide) (("1.19".toList)) [([1, 20], (("1.20".toList)))]).1

theorem isPrefixOf_nil_of_ne {old : List Char} (h : old ≠ []) :
    old.isPrefixOf ([] : List Char) = false := by
  cases old with
  | nil => exact absurd rfl h
  | cons o os => rfl

theorem replaceGo_nil (old nw : List Char) (f : Nat) : replaceGo old nw f [] = [] := by
  cases f <;> rfl

theorem replaceGo_skip (old nw : List Char) (a rest : List Char) (f : Nat)
    (hf : a.length + rest.length ≤ f)
    (h : ∀ i < a.length, ¬old.isPrefixOf ((a ++ rest).drop i) = true) :
    replaceGo old nw f (a ++ rest) = a ++ replaceGo old nw (f - a.length) rest := by
  induction a generalizing f with
  | nil => simp
  | cons x xs ih =>
    cases f with
    | zero => simp only [List.length_cons] at hf; omega
    | succ f' =>
      have h0 := h 0 (by simp)
      simp only [List.cons_append, List.drop_zero] at h0
      have hstep : replaceGo old nw (f' + 1) (x :: (xs ++ rest)) =
          x :: replaceGo old nw f' (xs ++ rest) := by
        rw [replaceGo, if_neg h0]
      rw [List.cons_append, hstep,
        ih f' (by simp at hf; omega)
          (fun i hi hp => h (i + 1) (by simp; omega) (by rwa [List.cons_append, List.drop_succ_cons]))]
      simp [List.length_cons, Nat.succ_sub_succ]

theorem replaceGo_hit (old nw rest : List Char) (f : Nat) (hne : old ≠ [])
    (hf : old.length + rest.length ≤ f) :
    replaceGo old nw f (old ++ rest) = nw ++ replaceGo old nw (f - 1) rest := by
  cases old with
  | nil => exact absurd rfl hne
  | cons o os =>
    cases f with
    | zero => simp only [List.length_cons] at hf; omega
    | succ f' =>
      rw [List.cons_append, replaceGo,
        if_pos (List.isPrefixOf_iff_prefix.mpr (by rw [← List.cons_append]; exact List.prefix_append _ rest)),
        ← List.cons_append, List.drop_left]
      rfl

theorem replaceGo_no_occ (old nw l : List Char) (f : Nat) (hf : l.length ≤ f)
    (h : ∀ i, ¬old.isPrefixOf (l.drop i) = true) :
    replaceGo old nw f l = l := by
  have := replaceGo_skip old nw l [] f (by simpa using hf)
    (fun i hi hp => h i (by rwa [List.append_nil] at hp))
  rw [List.append_nil] at this
  rw [this, replaceGo_nil, List.append_nil]

theorem pyReplace_eq_go (s old nw : List Char) (h : old ≠ []) :
    pyReplace s old nw = replaceGo old nw s.length s := by
  cases old with
  | nil => exact absurd rfl h
  | cons o os => rfl

/-- Claim C10: `update_stack`'s rewrite for one inline-strategy plan entry
replaces EVERY occurrence of `<locator>:<current tag>` in the file text, not
only the first: on a text of shape `a ++ old ++ b ++ old ++ c` in which `old`
occurs exactly at those two positions, both occurrences become
`<locator>:<newest tag>`. -/
theorem updateStack_rewrites_all_occurrences
    (name tag newTag : List Char) (nv : List Nat) (cands : List (List Nat × List Char))
    (a b c : List Char)
    (hc : name.contains ':' = false)
    (hlast : cands.getLast? = some (nv, newTag))
    (hocc : ∀ i < (a ++ (name ++ ':' :: tag) ++ b ++ (name ++ ':' :: tag) ++ c).length,
      (name ++ ':' :: tag).isPrefixOf
          ((a ++ (name ++ ':' :: tag) ++ b ++ (name ++ ':' :: tag) ++ c).drop i) = true →
        i = a.length ∨ i = a.length + (name ++ ':' :: tag).length + b.length) :
    newText (a ++ (name ++ ':' :: tag) ++ b ++ (name ++ ':' :: tag) ++ c) [((name, tag), cands)] =
      a ++ (name ++ ':' :: newTag) ++ b ++ (name ++ ':' :: newTag) ++ c := by
  set old := name ++ ':' :: tag with hold
  set nw := name ++ ':' :: newTag with hnw
  have holdne : old ≠ [] := by
    rw [hold]
    intro hnil
    have := congrArg List.length hnil
    simp at this
  have holdlen : 1 ≤ old.length := by
    cases hh : old with
    | nil => exact absurd hh holdne
    | cons x xs => simp
  have hstart : newText (a ++ old ++ b ++ old ++ c) [((name, tag), cands)] =
      pyReplace (a ++ old ++ b ++ old ++ c) old nw := by
    simp only [newText, List.foldl_cons, List.foldl_nil, applyEntry, hlast]
    rw [if_neg (by simpa using hc)]
  rw [hstart, pyReplace_eq_go _ _ _ holdne]
  -- normalize to right-nested appends
  have hs : a ++ old ++ b ++ old ++ c = a ++ (old ++ (b ++ (old ++ c))) := by
    simp [List.append_assoc]
  have hocc2 : ∀ i < (a ++ (old ++ (b ++ (old ++ c)))).length,
      old.isPrefixOf ((a ++ (old ++ (b ++ (old ++ c)))).drop i) = true →
        i = a.length ∨ i = a.length + old.length + b.length := by
    rw [← hs]; exact hocc
  rw [hs]
  set s := a ++ (old ++ (b ++ (old ++ c))) with hsdef
  have hslen : s.length = a.length + (old.length + (b.length + (old.length + c.length))) := by
    simp [hsdef]
  -- step 1: skip `a`
  have h1 : ∀ i < a.length, ¬old.isPrefixOf (s.drop i) = true := by
    intro i hi hp
    rcases hocc2 i (by omega) hp with h | h <;> omega
  rw [replaceGo_skip old nw a (old ++ (b ++ (old ++ c))) s.length (by rw [hslen]; simp only [List.length_append]; omega) h1]
  -- step 2: hit the first occurrence
  rw [replaceGo_hit old nw (b ++ (old ++ c)) (s.length - a.length) holdne (by rw [hslen]; simp only [List.length_append]; omega)]
  -- step 3: skip `b`
  have h3 : ∀ i < b.length, ¬old.isPrefixOf ((b ++ (old ++ c)).drop i) = true := by
    intro i hi hp
    have hdrop : (b ++ (old ++ c)).drop i = s.drop (a.length + old.length + i) := by
      rw [hsdef, show a.length + old.length + i = a.length + (old.length + i) from by omega,
        List.drop_append, List.drop_append]
    rw [hdrop] at hp
    rcases hocc2 (a.length + old.length + i) (by omega) hp with h | h <;> omega
  rw [replaceGo_skip old nw b (old ++ c) (s.length - a.length - 1) (by rw [hslen]; simp only [List.length_append]; omega) h3]
  -- step 4: hit the second occurrence
  rw [replaceGo_hit old nw c (s.length - a.length - 1 - b.length) holdne (by rw [hslen]; omega)]
  -- step 5: no occurrence in `c`
  have h5 : ∀ i, ¬old.isPrefixOf (c.drop i) = true := by
    intro i hp
    by_cases hi : i < c.length
    · have hdrop : c.drop i = s.drop (a.length + old.length + b.length + old.length + i) := by
        rw [hsdef,
          show a.length + old.length + b.length + old.length + i =
            a.length + (old.length + (b.length + (old.length + i))) from by omega,
          List.drop_append, List.drop_append, List.drop_append, List.drop_append]
      rw [hdrop] at hp
      rcases hocc2 (a.length + old.length + b.length + old.length + i) (by omega) hp with h | h <;>
        omega
    · rw [List.drop_eq_nil_of_le (by omega), isPrefixOf_nil_of_ne holdne] at hp
      cases hp
  rw [replaceGo_no_occ old nw c (s.length - a.length - 1 - b.length - 1) (by rw [hslen]; omega) h5]
  simp [List.append_assoc]

/-- Claim C10 (witness): a compose file naming `nginx:1.19` in two services;
one plan entry rewrites both occurrences. -/
theorem updateStack_rewrites_all_occurrences_witness :
    newText ((("services:\n  web:\n    image: ".toList)) ++
        ((("nginx".toList)) ++ ':' :: (("1.19".toList))) ++ (("\n  db:\n    image: ".toList)) ++
        ((("nginx".toList)) ++ ':' :: (("1.19".toList))) ++ (("\n".toList)))
      [(((("nginx".toList)), (("1.19".toList))), [([1, 20], (("1.20".toList)))])] =
      (("services:\n  web:\n    image: ".toList)) ++
        ((("nginx".toList)) ++ ':' :: (("1.20".toList))) ++ (("\n  db:\n    image: ".toList)) ++
        ((("nginx".toList)) ++ ':' :: (("1.20".toList))) ++ (("\n".toList)) :=
  updateStack_rewrites_all_occurrences (("nginx".toList)) (("1.19".toList)) (("1.20".toList))
    [1, 20] [([1, 20], (("1.20".toList)))] (("services:\n  web:\n    image: ".toList))
    (("\n  db:\n    image: ".toList)) (("\n".toList)) (by decide) (by decide) (by decide)

/-! ### Order lemmas for the Python tuple/string comparison -/

variable {α : Type} [DecidableEq α]

theorem lexLt_irrefl (lt : α → α → Bool) (hirr : ∀ a, lt a a = false) :
    ∀ l, lexLt lt l l = false := by
  intro l
  induction l with
  | nil => rfl
  | cons a as ih => simp [lexLt, hirr a, ih]

theorem lexLt_trans (lt : α → α → Bool)
    (htr : ∀ a b c, lt a b = true → lt b c = true → lt a c = true) :
    ∀ l1 l2 l3, lexLt lt l1 l2 = true → lexLt lt l2 l3 = true →
    lexLt lt l1 l3 = true := by
  intro l1
  induction l1 with
  | nil =>
    intro l2 l3 h12 h23
    cases l2 with
    | nil => cases h12
    | cons b bs =>
      cases l3 with
      | nil => cases h23
      | cons c cs => rfl
  | cons a as ih =>
    intro l2 l3 h12 h23
    cases l2 with
    | nil => cases h12
    | cons b bs =>
      cases l3 with
      | nil => cases h23
      | cons c cs =>
        simp only [lexLt, Bool.or_eq_true, Bool.and_eq_true, decide_eq_true_eq] at h12 h23 ⊢
        rcases h12 with h12 | ⟨rfl, h12⟩
        · rcases h23 with h23 | ⟨rfl, h23⟩
          · exact Or.inl (htr _ _ _ h12 h23)
          · exact Or.inl h12
        · rcases h23 with h23 | ⟨rfl, h23⟩
          · exact Or.inl h23
          · exact Or.inr ⟨rfl, ih _ _ h12 h23⟩

theorem lexLt_conn (lt : α → α → Bool)
    (hconn : ∀ a b, lt a b = false → lt b a = false → a = b) :
    ∀ l1 l2, lexLt lt l1 l2 = false → lexLt lt l2 l1 = false → l1 = l2 := by
  intro l1
  induction l1 with
  | nil =>
    intro l2 h12 _h21
    cases l2 with
    | nil => rfl
    | cons b bs => cases h12
  | cons a as ih =>
    intro l2 h12 h21
    cases l2 with
    | nil => cases h21
    | cons b bs =>
      simp only [lexLt, Bool.or_eq_false_iff, Bool.and_eq_false_iff, decide_eq_false_iff_not] at h12 h21
      obtain ⟨hab, h12r⟩ := h12
      obtain ⟨hba, h21r⟩ := h21
      have hab2 : a = b := hconn a b hab hba
      subst hab2
      rcases h12r with h | h12r
      · exact absurd rfl h
      rcases h21r with h | h21r
      · exact absurd rfl h
      rw [ih bs h12r h21r]

theorem natLt_irrefl : ∀ a : Nat, decide (a < a) = false := by simp
theorem natLt_trans : ∀ a b c : Nat, decide (a < b) = true → decide (b < c) = true →
    decide (a < c) = true := by
  intro a b c h1 h2
  simp only [decide_eq_true_eq] at h1 h2 ⊢
  omega
theorem natLt_conn : ∀ a b : Nat, decide (a < b) = false → decide (b < a) = false → a = b := by
  intro a b h1 h2
  simp only [decide_eq_false_iff_not] at h1 h2
  omega

theorem charLt_irrefl : ∀ a : Char, decide (a.toNat < a.toNat) = false := by simp
theorem charLt_trans : ∀ a b c : Char, decide (a.toNat < b.toNat) = true →
    decide (b.toNat < c.toNat) = true → decide (a.toNat < c.toNat) = true := by
  intro a b c h1 h2
  simp only [decide_eq_true_eq] at h1 h2 ⊢
  omega
theorem charLt_conn : ∀ a b : Char, decide (a.toNat < b.toNat) = false →
    decide (b.toNat < a.toNat) = false → a = b := by
  intro a b h1 h2
  simp only [decide_eq_false_iff_not] at h1 h2
  have h3 : a.toNat = b.toNat := by omega
  exact Char.eq_of_val_eq (UInt32.toNat.inj h3)

theorem natListLt_irrefl (l : List Nat) : natListLt l l = false :=
  lexLt_irrefl _ natLt_irrefl l

theorem natListLt_trans {l1 l2 l3 : List Nat} (h1 : natListLt l1 l2 = true)
    (h2 : natListLt l2 l3 = true) : natListLt l1 l3 = true :=
  lexLt_trans _ natLt_trans l1 l2 l3 h1 h2

theorem natListLt_conn {l1 l2 : List Nat} (h1 : natListLt l1 l2 = false)
    (h2 : natListLt l2 l1 = false) : l1 = l2 :=
  lexLt_conn _ natLt_conn l1 l2 h1 h2

theorem natListLt_asymm {l1 l2 : List Nat} (h : natListLt l1 l2 = true) :
    natListLt l2 l1 = false := by
  cases h2 : natListLt l2 l1 with
  | false => rfl
  | true =>
    have h3 := natListLt_trans h h2
    rw [natListLt_irrefl l1] at h3
    cases h3

theorem charListLt_trans {l1 l2 l3 : List Char} (h1 : charListLt l1 l2 = true)
    (h2 : charListLt l2 l3 = true) : charListLt l1 l3 = true :=
  lexLt_trans _ charLt_trans l1 l2 l3 h1 h2

theorem charListLt_conn {l1 l2 : List Char} (h1 : charListLt l1 l2 = false)
    (h2 : charListLt l2 l1 = false) : l1 = l2 :=
  lexLt_conn _ charLt_conn l1 l2 h1 h2

theorem pairLe_total : ∀ a b : List Nat × List Char, pairLe a b ∨ pairLe b a := by
  intro a b
  cases h1 : natListLt a.1 b.1 with
  | true => exact Or.inl (Or.inl h1)
  | false =>
    cases h2 : natListLt b.1 a.1 with
    | true => exact Or.inr (Or.inl h2)
    | false =>
      have he : a.1 = b.1 := natListLt_conn h1 h2
      cases h3 : charListLt a.2 b.2 with
      | true => exact Or.inl (Or.inr ⟨he, Or.inl h3⟩)
      | false =>
        cases h4 : charListLt b.2 a.2 with
        | true => exact Or.inr (Or.inr ⟨he.symm, Or.inl h4⟩)
        | false => exact Or.inl (Or.inr ⟨he, Or.inr (charListLt_conn h3 h4)⟩)

theorem pairLe_trans : ∀ a b c : List Nat × List Char, pairLe a b → pairLe b c → pairLe a c := by
  intro a b c hab hbc
  rcases hab with hab | ⟨hab1, hab2⟩
  · rcases hbc with hbc | ⟨hbc1, hbc2⟩
    · exact Or.inl (natListLt_trans hab hbc)
    · exact Or.inl (hbc1 ▸ hab)
  · rcases hbc with hbc | ⟨hbc1, hbc2⟩
    · exact Or.inl (hab1 ▸ hbc)
    · refine Or.inr ⟨hab1.trans hbc1, ?_⟩
      rcases hab2 with h | h
      · rcases hbc2 with h2 | h2
        · exact Or.inl (charListLt_trans h h2)
        · exact Or.inl (h2 ▸ h)
      · rcases hbc2 with h2 | h2
        · exact Or.inl (h ▸ h2)
        · exact Or.inr (h.trans h2)

instance : IsTotal (List Nat × List Char) pairLe := ⟨pairLe_total⟩

instance : IsTrans (List Nat × List Char) pairLe := ⟨pairLe_trans⟩

theorem sorted_last_ge {l : List (List Nat × List Char)} (hs : l.Pairwise pairLe) :
    ∀ x ∈ l, ∀ m, l.getLast? = some m → pairLe x m ∨ x = m := by
  induction l with
  | nil => intro x hx; cases hx
  | cons a as ih =>
    intro x hx m hm
    cases as with
    | nil =>
      rcases List.mem_singleton.mp hx with rfl
      cases hm
      exact Or.inr rfl
    | cons b bs =>
      have hm2 : (b :: bs).getLast? = some m := by
        rw [List.getLast?_cons_cons] at hm
        exact hm
      rcases List.mem_cons.mp hx with rfl | hx2
      · have hmm : m ∈ b :: bs := by
          obtain ⟨hne, heq⟩ := List.mem_getLast?_eq_getLast (Option.mem_def.mpr hm2)
          rw [heq]
          exact List.getLast_mem hne
        exact Or.inl ((List.pairwise_cons.mp hs).1 m hmm)
      · exact ih (List.pairwise_cons.mp hs).2 x hx2 m hm2

/-! ### Characterization of the tag-pattern derivation -/

/-- The shape a maximal numeric run leaves behind: the remainder is empty, or
starts with a non-digit which, when a separator, is not followed by a digit
(otherwise the greedy run would extend). -/
def sufOkB : List Char → Bool
  | [] => true
  | c :: cs =>
    !c.isDigit &&
      (if isSep c then
        match cs with
        | [] => true
        | d :: _ => !d.isDigit
      else true)

theorem takeRunRest_append (l : List Char) : (takeRunRest l).1 ++ (takeRunRest l).2 = l := by
  induction l using takeRunRest.induct with
  | case1 => rfl
  | case2 c cs h ih => rw [takeRunRest.eq_def]; simp [h, ih]
  | case3 c h1 h2 => rw [takeRunRest.eq_def]; simp [h1, h2]
  | case4 c h1 h2 d cs2 h3 ih => rw [takeRunRest.eq_def]; simp [h1, h2, h3, ih]
  | case5 c h1 h2 d cs2 h3 => rw [takeRunRest.eq_def]; simp [h1, h2, h3]
  | case6 c cs h1 h2 => rw [takeRunRest.eq_def]; simp [h1, h2]

theorem runRest_takeRunRest (l : List Char) : runRest (takeRunRest l).1 = true := by
  induction l using takeRunRest.induct with
  | case1 => rfl
  | case2 c cs h ih =>
    rw [takeRunRest.eq_def]
    simp only [h, if_true, if_pos]
    rw [runRest.eq_def]
    simp [h, ih]
  | case3 c h1 h2 => rw [takeRunRest.eq_def]; simp [h1, h2, runRest]
  | case4 c h1 h2 d cs2 h3 ih =>
    rw [takeRunRest.eq_def]
    simp only [h1, h2, h3, if_true, if_false, if_pos, if_neg, not_false_eq_true]
    rw [runRest.eq_def]
    simp [h1, h2, h3, ih]
  | case5 c h1 h2 d cs2 h3 => rw [takeRunRest.eq_def]; simp [h1, h2, h3, runRest]
  | case6 c cs h1 h2 => rw [takeRunRest.eq_def]; simp [h1, h2, runRest]

theorem sufOkB_takeRunRest (l : List Char) : sufOkB (takeRunRest l).2 = true := by
  induction l using takeRunRest.induct with
  | case1 => rfl
  | case2 c cs h ih => rw [takeRunRest.eq_def]; simpa [h] using ih
  | case3 c h1 h2 => rw [takeRunRest.eq_def]; simp [h1, h2, sufOkB]
  | case4 c h1 h2 d cs2 h3 ih => rw [takeRunRest.eq_def]; simpa [h1, h2, h3] using ih
  | case5 c h1 h2 d cs2 h3 => rw [takeRunRest.eq_def]; simp [h1, h2, h3, sufOkB]
  | case6 c cs h1 h2 => rw [takeRunRest.eq_def]; simp [h1, h2, sufOkB]
theorem takeRunRest_stop (u : List Char) (hu : sufOkB u = true) : takeRunRest u = ([], u) := by
  cases u with
  | nil => rfl
  | cons c cs =>
    rw [sufOkB.eq_def] at hu
    simp only [Bool.and_eq_true, Bool.not_eq_true'] at hu
    obtain ⟨hcd, hrest⟩ := hu
    rw [takeRunRest.eq_def]
    cases hsep : isSep c with
    | false => simp [hcd, hsep]
    | true =>
      simp only [hsep, if_true] at hrest
      cases cs with
      | nil => simp [hcd, hsep]
      | cons d cs2 =>
        simp only [Bool.not_eq_true'] at hrest
        simp [hcd, hsep, hrest]
theorem takeRunRest_exact (r u : List Char) (hr : runRest r = true) (hu : sufOkB u = true) :
    takeRunRest (r ++ u) = (r, u) := by
  induction r using runRest.induct with
  | case1 => simpa using takeRunRest_stop u hu
  | case2 c cs h ih =>
    rw [runRest.eq_def] at hr
    simp only [h, if_true, if_pos] at hr
    rw [List.cons_append, takeRunRest.eq_def]
    simp [h, ih hr]
  | case3 c h1 h2 =>
    rw [runRest.eq_def] at hr
    simp [h1, h2] at hr
  | case4 c h1 h2 d cs ih =>
    rw [runRest.eq_def] at hr
    simp [h1, h2] at hr
    rw [List.cons_append, List.cons_append, takeRunRest.eq_def]
    simp [h1, h2, hr.1, ih hr.2]
  | case5 c cs h1 h2 =>
    rw [runRest.eq_def] at hr
    simp [h1, h2] at hr
theorem derive_spec {t p r u : List Char} (h : derive t = some (p, r, u)) :
    t = p ++ r ++ u ∧ (∀ c ∈ p, c.isDigit = false) ∧ isRunB r = true ∧ sufOkB u = true := by
  induction t using derive.induct generalizing p r u with
  | case1 => cases h
  | case2 c cs hdig =>
    rw [derive.eq_def] at h
    simp only [hdig, if_true, if_pos, Option.some.injEq, Prod.mk.injEq] at h
    obtain ⟨rfl, rfl, rfl⟩ := h
    refine ⟨?_, by simp, ?_, sufOkB_takeRunRest cs⟩
    · simpa using (takeRunRest_append cs).symm
    · rw [isRunB]
      simp [hdig, runRest_takeRunRest cs]
  | case3 c cs hdig hnone ih =>
    rw [derive.eq_def] at h
    simp only [hdig, if_false, if_neg, not_false_eq_true, hnone] at h
    cases h
  | case4 c cs hdig p' r' u' hsome ih =>
    rw [derive.eq_def] at h
    simp only [hdig, if_false, if_neg, not_false_eq_true, hsome, Option.some.injEq,
      Prod.mk.injEq] at h
    obtain ⟨rfl, rfl, rfl⟩ := h
    obtain ⟨ht, hpd, hrr, huu⟩ := ih hsome
    refine ⟨by rw [ht]; simp, ?_, hrr, huu⟩
    intro x hx
    rcases List.mem_cons.mp hx with rfl | hx2
    · simpa using hdig
    · exact hpd x hx2
theorem derive_complete {p r u : List Char}
    (hp : ∀ c ∈ p, c.isDigit = false) (hr : isRunB r = true) (hu : sufOkB u = true) :
    derive (p ++ r ++ u) = some (p, r, u) := by
  induction p with
  | nil =>
    cases r with
    | nil => cases hr
    | cons d rs =>
      rw [isRunB] at hr
      simp only [Bool.and_eq_true] at hr
      rw [List.nil_append, List.cons_append, derive.eq_def]
      simp [hr.1, takeRunRest_exact rs u hr.2 hu]
  | cons x p' ih =>
    have hx : x.isDigit = false := hp x (List.mem_cons_self x p')
    rw [List.cons_append, List.cons_append, derive.eq_def]
    have ih2 := ih (fun c hc => hp c (List.mem_cons_of_mem _ hc))
    simp only [List.append_assoc] at ih2 ⊢
    simp [hx, ih2]
theorem patMatch_some_iff {pre suf : List Char}
    (hp : ∀ c ∈ pre, c.isDigit = false) (hu : sufOkB suf = true) (t mid : List Char) :
    patMatch pre suf t = some mid ↔ derive t = some (pre, mid, suf) := by
  constructor
  · intro h
    unfold patMatch at h
    split at h
    · next hcond =>
      obtain ⟨hlen, hpre, hsuf⟩ := hcond
      split at h
      · next hrun =>
        simp only [Option.some.injEq] at h
        obtain ⟨u1, hu1⟩ := List.isPrefixOf_iff_prefix.mp hpre
        obtain ⟨v1, hv1⟩ := List.isSuffixOf_iff_suffix.mp hsuf
        have e1 : pre.length + u1.length = t.length := by
          have := congrArg List.length hu1
          simpa using this
        have e2 : v1.length + suf.length = t.length := by
          have := congrArg List.length hv1
          simpa using this
        have hdrop : t.drop pre.length = u1 := by rw [← hu1]; exact List.drop_left pre u1
        have hsplit : u1.drop (u1.length - suf.length) = suf := by
          have h1 : t.drop (pre.length + (u1.length - suf.length)) =
              u1.drop (u1.length - suf.length) := by
            rw [← hu1, List.drop_append]
          have h2 : t.drop v1.length = suf := by rw [← hv1]; exact List.drop_left v1 suf
          rw [← h1, show pre.length + (u1.length - suf.length) = v1.length from by omega, h2]
        have hmid : mid = u1.take (u1.length - suf.length) := by
          rw [← h, hdrop]
          congr 1
          omega
        have hdecomp : t = pre ++ mid ++ suf := by
          calc t = pre ++ u1 := hu1.symm
            _ = pre ++ (u1.take (u1.length - suf.length) ++
                u1.drop (u1.length - suf.length)) := by rw [List.take_append_drop]
            _ = pre ++ (mid ++ suf) := by rw [hsplit, ← hmid]
            _ = pre ++ mid ++ suf := by rw [List.append_assoc]
        have hrun2 : isRunB mid = true := by rw [← h]; exact hrun
        rw [hdecomp]
        exact derive_complete hp hrun2 hu
      · cases h
    · cases h
  · intro h
    obtain ⟨ht, _hpd, hrr, huu⟩ := derive_spec h
    have hmidne : 1 ≤ mid.length := by
      cases hm : mid with
      | nil => rw [hm] at hrr; cases hrr
      | cons a b => simp
    have htlen : t.length = pre.length + mid.length + suf.length := by
      rw [ht]
      simp only [List.length_append]
    have hcond : pre.length + suf.length < t.length ∧ pre.isPrefixOf t = true ∧
        suf.isSuffixOf t = true := by
      refine ⟨by omega, ?_, ?_⟩
      · rw [ht]
        exact List.isPrefixOf_iff_prefix.mpr ⟨mid ++ suf, by simp⟩
      · rw [ht]
        exact List.isSuffixOf_iff_suffix.mpr ⟨pre ++ mid, by simp⟩
    unfold patMatch
    rw [if_pos hcond]
    have hdrop : t.drop pre.length = mid ++ suf := by
      rw [ht, List.append_assoc]
      exact List.drop_left pre (mid ++ suf)
    have hlen2 : t.length - pre.length - suf.length = mid.length := by omega
    rw [hdrop, hlen2, List.take_left, if_pos hrr]

theorem newerTags_mem_iff {pre run suf : List Char}
    (hp : ∀ c ∈ pre, c.isDigit = false) (hu : sufOkB suf = true)
    (tags : List (List Char)) (v : List Nat) (x : List Char) :
    (v, x) ∈ newerTags pre suf (versionTuple run) tags ↔
      x ∈ tags ∧ specNewerTuple pre run suf x = some v := by
  unfold newerTags
  rw [List.mem_filterMap]
  constructor
  · rintro ⟨t, ht, hf⟩
    cases hpm : patMatch pre suf t with
    | none =>
      rw [hpm] at hf
      exact Option.noConfusion hf
    | some mid =>
      simp only [hpm] at hf
      by_cases hcnd : (versionTuple run).length = (versionTuple mid).length ∧
          natListLt (versionTuple run) (versionTuple mid) = true
      · rw [if_pos hcnd] at hf
        simp only [Option.some.injEq, Prod.mk.injEq] at hf
        obtain ⟨rfl, rfl⟩ := hf
        refine ⟨ht, ?_⟩
        unfold specNewerTuple
        simp only [(patMatch_some_iff hp hu t mid).mp hpm]
        simp [hcnd.1.symm, hcnd.2]
      · rw [if_neg hcnd] at hf
        cases hf
  · rintro ⟨hx, hs⟩
    unfold specNewerTuple at hs
    cases hd : derive x with
    | none =>
      rw [hd] at hs
      exact Option.noConfusion hs
    | some trip =>
      obtain ⟨p, r, u⟩ := trip
      simp only [hd] at hs
      by_cases hcnd : p = pre ∧ u = suf ∧
          (versionTuple r).length = (versionTuple run).length ∧
          natListLt (versionTuple run) (versionTuple r) = true
      · rw [if_pos hcnd] at hs
        obtain ⟨rfl, rfl, hlen, hlt⟩ := hcnd
        injection hs with hseq
        refine ⟨x, hx, ?_⟩
        subst hseq
        simp only [(patMatch_some_iff hp hu x r).mpr hd]
        simp [hlen.symm, hlt]
      · rw [if_neg hcnd] at hs
        cases hs

theorem checkImage_some_eq {tagsOf : List Char → List (List Char)}
    {image tag pre run suf : List Char} {res : List (List Nat × List Char)}
    (hd : derive tag = some (pre, run, suf))
    (hres : checkImage tagsOf image tag = some res) :
    res = sortPairs (newerTags pre suf (versionTuple run)
      (tagsOf (if image.contains '/' then image else ("library/".toList) ++ image))) := by
  unfold checkImage at hres
  simp only [hd] at hres
  split at hres
  · cases hres
  · simp only [Option.some.injEq] at hres
    exact hres.symm

/-- Claim C1: for a current tag derived into `(pre, run, suf)` and any
candidate tag list, `check_image` reports `(v, x)` as a newer candidate iff
`x` is in the repository's tag list, `x`'s own derived prefix and suffix are
byte-identical to the current tag's, its version tuple has the same segment
count as the current tuple, and it is strictly greater under lexicographic
integer comparison (`specNewerTuple`); the returned list is sorted ascending
by tuple, and no element's tuple exceeds the last element's tuple. -/
theorem checkImage_newer_iff (tagsOf : List Char → List (List Char))
    (image tag pre run suf : List Char) (res : List (List Nat × List Char))
    (hd : derive tag = some (pre, run, suf))
    (hres : checkImage tagsOf image tag = some res) :
    (∀ v x, (v, x) ∈ res ↔
      x ∈ tagsOf (if image.contains '/' then image else ("library/".toList) ++ image) ∧
        specNewerTuple pre run suf x = some v) ∧
    List.Pairwise (fun a b : List Nat × List Char =>
      natListLt a.1 b.1 = true ∨ a.1 = b.1) res ∧
    (∀ x ∈ res, ∀ m, res.getLast? = some m → natListLt m.1 x.1 = false) := by
  obtain ⟨_ht, hpd, _hrr, hsu⟩ := derive_spec hd
  have hres2 := checkImage_some_eq hd hres
  subst hres2
  have hsorted : List.Pairwise pairLe (sortPairs (newerTags pre suf (versionTuple run)
      (tagsOf (if image.contains '/' then image else ("library/".toList) ++ image)))) :=
    List.sorted_insertionSort pairLe _
  refine ⟨?_, ?_, ?_⟩
  · intro v x
    rw [sortPairs, List.mem_insertionSort]
    exact newerTags_mem_iff hpd hsu _ v x
  · exact hsorted.imp (fun hab => by
      rcases hab with h | ⟨h, _⟩
      · exact Or.inl h
      · exact Or.inr h)
  · intro x hx m hm
    rcases sorted_last_ge hsorted x hx m hm with hle | rfl
    · rcases hle with h | ⟨h, _⟩
      · exact natListLt_asymm h
      · rw [h]
        exact natListLt_irrefl _
    · exact natListLt_irrefl _

/-- Claim C1 (witness): `nginx:1.19` against
`['1.19', '1.20', '1.21-alpine', '1.18']` — `1.20` is reported with tuple
`[1, 20]` (while `1.21-alpine` is excluded by suffix mismatch and `1.18` by
comparison, per the iff applied under the hood). -/
theorem checkImage_newer_iff_witness :
    ([1, 20], (("1.20".toList))) ∈
      ([([1, 20], (("1.20".toList)))] : List (List Nat × List Char)) :=
  ((checkImage_newer_iff
      (fun _ => [(("1.19".toList)), (("1.20".toList)), (("1.21-alpine".toList)), (("1.18".toList))])
      (("nginx".toList)) (("1.19".toList)) [] (("1.19".toList)) []
      [([1, 20], (("1.20".toList)))] (by decide) (by decide)).1
    [1, 20] (("1.20".toList))).mpr ⟨by decide, by decide⟩

end Updater
